import Mathlib

/-!
Shallow embedding of `curator.py`, a script that copies images and videos
from a collection of source directories into a dated destination directory,
renaming each copied file with the user's initials and a zero-padded
per-category index.

Paths are modelled as lists of components (`List String`), directory trees
as a nested inductive (`Entry`), file copies and skip notices as an explicit
event trace, and the two `mkdir` calls as a list of created directories
guarded by "already exists" flags taken as inputs.  Machine-level details
(actual I/O, `shutil.copy2` byte copying) are outside the model; everything
that determines destination names, ordering, counting and directory choice
is translated line by line from the source.
-/

namespace Curator

/-- Embedding of CPython `str.lower` on the ASCII range (the only range the
script's extension comparisons can exercise): uppercase ASCII letters are
shifted by 32, every other character is unchanged. -/
def lowerChar (c : Char) : Char :=
  if 65 ≤ c.toNat ∧ c.toNat ≤ 90 then Char.ofNat (c.toNat + 32) else c

/-- `s.lower()` applied characterwise. -/
def lowerStr (s : String) : String :=
  String.mk (s.data.map lowerChar)

/-- Index of the last occurrence of `c` in `cs`, as CPython `str.rfind`
(`none` standing for the `-1` "not found" result). -/
def rfindChar (cs : List Char) (c : Char) : Option Nat :=
  match cs.reverse.findIdx? (fun d => d == c) with
  | none => none
  | some j => some (cs.length - 1 - j)

/-- Embedding of `pathlib.PurePath.suffix`: the substring from the final dot
when that dot is neither the first nor the last character of the final
component, and the empty string otherwise. -/
def pySuffix (name : String) : String :=
  match rfindChar name.data '.' with
  | none => ""
  | some i => if 0 < i ∧ i + 1 < name.data.length then String.mk (name.data.drop i) else ""

/-- Embedding of CPython `str.rjust`: left-pad with `fill` up to `width`;
strings already at least `width` long are returned unchanged. -/
def rjust (s : String) (width : Nat) (fill : Char) : String :=
  String.mk (List.replicate (width - s.data.length) fill ++ s.data)

/-- Worker for `pyStr`: emits the decimal digits of `n` most significant
first, with explicit fuel so that the recursion is structural. -/
def toDigitsAux : Nat → Nat → List Char → List Char
  | 0, _, acc => acc
  | fuel + 1, n, acc =>
      let acc' := Char.ofNat (48 + n % 10) :: acc
      if n < 10 then acc' else toDigitsAux fuel (n / 10) acc'

/-- Embedding of CPython `str(n)` for a natural number `n`. -/
def pyStr (n : Nat) : String :=
  String.mk (toDigitsAux (n + 1) n [])

/-- Strict lexicographic comparison of character lists; this is how CPython
compares the strings that make up path components. -/
def strLtB : List Char → List Char → Bool
  | [], [] => false
  | [], _ :: _ => true
  | _ :: _, [] => false
  | c :: cs, d :: ds =>
      if c.toNat < d.toNat then true
      else if d.toNat < c.toNat then false
      else strLtB cs ds

/-- Non-strict lexicographic order on paths seen as component lists; models
the order used by `sorted` on `pathlib.Path` values. -/
def pathLeB : List String → List String → Bool
  | [], _ => true
  | _ :: _, [] => false
  | s :: ss, t :: ts =>
      if strLtB s.data t.data then true
      else if strLtB t.data s.data then false
      else pathLeB ss ts

/-- Stable insertion into an already sorted list. -/
def insertSorted {α : Type} (le : α → α → Bool) (a : α) : List α → List α
  | [] => [a]
  | b :: bs => if le a b then a :: b :: bs else b :: insertSorted le a bs

/-- Stable insertion sort; extensionally equal to CPython's stable `sorted`
for a total preorder `le`. -/
def sortBy {α : Type} (le : α → α → Bool) : List α → List α
  | [] => []
  | a :: as => insertSorted le a (sortBy le as)

/-- A directory entry as the script observes it through `iterdir`: a file
with a modification timestamp, or a subdirectory with its own children. -/
inductive Entry where
  | file (name : String) (mtime : Nat)
  | dir (name : String) (children : List Entry)

/-- The final path component of an entry. -/
def Entry.name : Entry → String
  | .file n _ => n
  | .dir n _ => n

/-- Embedding of `Path.is_dir`. -/
def Entry.isDirB : Entry → Bool
  | .file _ _ => false
  | .dir _ _ => true

/-- A source directory: its path together with its direct children. -/
structure Source where
  path : List String
  children : List Entry

/-- Constant `KNOWN_IMAGE_TYPES` (lines 13-20); the Python `set` literal is
rendered as a duplicate-free list, membership being all the script uses. -/
def KNOWN_IMAGE_TYPES : List String :=
  [".gif", ".bmp", ".png", ".jpg", ".jpeg", ".tiff"]

/-- Constant `KNOWN_VIDEO_TYPES` (lines 21-27). -/
def KNOWN_VIDEO_TYPES : List String :=
  [".m4v", ".mp4", ".avi", ".mov", ".wmv"]

/-- Constant `DEFAULT_VIDEO_DIRECTORY` (line 29). -/
def DEFAULT_VIDEO_DIRECTORY : String := "Clips"

/-- Constant `TITLE_FORMAT` (line 30) applied to its three fields. -/
def TITLE_FORMAT (year month title : String) : String :=
  year ++ "-" ++ month ++ " " ++ title

/-- Constant `ITEM_FORMAT` (line 31) applied to its three fields. -/
def ITEM_FORMAT (initials index extension : String) : String :=
  initials ++ "_" ++ index ++ extension

mutual

/-- The body of `collect_subsources` (lines 72-75) for one entry: a
subdirectory is added and recursed into, a file contributes nothing. -/
def entrySubsources : Entry → List String → List Source
  | .file _ _, _ => []
  | .dir n cs, path => ⟨path ++ [n], cs⟩ :: collect_subsources cs (path ++ [n])

/-- Embedding of `collect_subsources` (lines 70-75): every subdirectory at
any depth below the given children, paired with its own children.  The
Python version accumulates into a set whose order is irrelevant because the
caller sorts afterwards; here the discovered directories are listed in
depth-first order. -/
def collect_subsources : List Entry → List String → List Source
  | [], _ => []
  | e :: rest, path => entrySubsources e path ++ collect_subsources rest path

end

/-- A Python `set` of `Path`-keyed sources: deduplication by path, keeping
the first occurrence. -/
def dedupByPath : List Source → List Source
  | [] => []
  | s :: rest => s :: (dedupByPath rest).filter (fun t => decide (t.path ≠ s.path))

/-- Order on sources used by `sorted(..., key=lambda source_path: source_path)`
(line 91): compare the paths. -/
def sourceLeB (s t : Source) : Bool := pathLeB s.path t.path

/-- Lines 80-92: the supplied sources become a set, subsources are collected
below each of them, the union is taken, and the result is sorted by path. -/
def resolveSources (supplied : List Source) : List Source :=
  let base := dedupByPath supplied
  let subs := base.flatMap (fun s => collect_subsources s.children s.path)
  sortBy sourceLeB (dedupByPath (base ++ subs))

/-- Embedding of `count_files` (lines 104-113): every direct child whose
lowercased suffix is in `desired_filetypes` is counted, whether it is a file
or a directory. -/
def count_files (sources : List Source) (desired_filetypes : List String) : Nat :=
  sources.foldl
    (fun file_count s =>
      file_count +
        s.children.countP (fun item => decide (lowerStr (pySuffix item.name) ∈ desired_filetypes)))
    0

/-- An item of the copy phase: a non-directory direct child of a source,
with its full path and modification timestamp. -/
structure FItem where
  path : List String
  mtime : Nat

/-- `item.suffix.lower()` for an item, computed from its final component. -/
def FItem.filetype (it : FItem) : String :=
  lowerStr (pySuffix (it.path.getLastD ""))

/-- The inner loop of lines 150-154: direct children that are not
directories, paired with their modification time, in `iterdir` order. -/
def directFiles (s : Source) : List FItem :=
  s.children.filterMap (fun item =>
    match item with
    | .file n m => some ⟨s.path ++ [n], m⟩
    | .dir _ _ => none)

/-- `sorted(subsource_items, key=lambda pair: pair[1])`: compare timestamps. -/
def mtimeLeB (a b : FItem) : Bool := Nat.ble a.mtime b.mtime

/-- Lines 148-156: per source, gather the non-directory children, sort them
by modification time, and append the group to the global item list. -/
def collectItems (sources : List Source) : List FItem :=
  sources.foldl (fun items s => items ++ sortBy mtimeLeB (directFiles s)) []

/-- One observable action of the copy loop.  The index used to build a copy
destination is recorded alongside the source and destination paths. -/
inductive Event where
  | copyImage (src : List String) (dst : List String) (index : Nat)
  | copyVideo (src : List String) (dst : List String) (index : Nat)
  | ignore (src : List String)

/-- Embedding of the copy-and-rename loop (lines 159-184), producing the
trace of copies and skip notices while threading the two counters. -/
def copyLoop (initials : String) (destination video_destination : List String)
    (image_index_places video_index_places : Nat) :
    List FItem → Nat → Nat → List Event
  | [], _, _ => []
  | item :: rest, image_index, video_index =>
      let filetype := item.filetype
      if filetype ∈ KNOWN_IMAGE_TYPES then
        Event.copyImage item.path
            (destination ++
              [ITEM_FORMAT initials (rjust (pyStr image_index) image_index_places '0') filetype])
            image_index ::
          copyLoop initials destination video_destination image_index_places video_index_places
            rest (image_index + 1) video_index
      else if filetype ∈ KNOWN_VIDEO_TYPES then
        Event.copyVideo item.path
            (video_destination ++
              [ITEM_FORMAT initials (rjust (pyStr video_index) video_index_places '0') filetype])
            video_index ::
          copyLoop initials destination video_destination image_index_places video_index_places
            rest image_index (video_index + 1)
      else
        Event.ignore item.path ::
          copyLoop initials destination video_destination image_index_places video_index_places
            rest image_index video_index

namespace Parser

/-- Embedding of `Parser.error` (lines 50-52): print one diagnostic line and
return normally; the output is the list of printed lines. -/
def error (message : String) : List String :=
  ["An error occurred: " ++ message]

/-- Line 77: `str(month).rjust(2, "0")`. -/
def sanitize_month (month : String) : String := rjust month 2 '0'

/-- Line 78: `str(year).rjust(4, "0")`. -/
def sanitize_year (year : String) : String := rjust year 4 '0'

end Parser

/-- The inputs of one run: the command-line values after `str` conversion,
the source trees, and whether each destination directory already exists on
disk before the run. -/
structure Config where
  destination : List String
  sources : List Source
  initials : String
  title : String
  year : String
  month : String
  destinationExists : Bool
  videoDestinationExists : Bool

/-- Everything a run computes and does, in the order the script does it. -/
structure RunResult where
  sources : List Source
  image_count : Nat
  video_count : Nat
  image_index_places : Nat
  video_index_places : Nat
  destination : List String
  video_destination : List String
  mkdirs : List (List String)
  items : List FItem
  trace : List Event

/-- Embedding of the main body of the script (lines 116-184), with the
argument sanitization of lines 77-78 applied to the year and month. -/
def run (cfg : Config) : RunResult :=
  let month := Parser.sanitize_month cfg.month
  let year := Parser.sanitize_year cfg.year
  let sources := resolveSources cfg.sources
  let image_count := count_files sources KNOWN_IMAGE_TYPES
  let video_count := count_files sources KNOWN_VIDEO_TYPES
  let image_index_places := (pyStr image_count).data.length
  let video_index_places := (pyStr video_count).data.length
  let destination := cfg.destination ++ [TITLE_FORMAT year month cfg.title]
  let video_destination :=
    if 0 < video_count ∧ image_count = 0 then destination
    else destination ++ [DEFAULT_VIDEO_DIRECTORY]
  let mkdirs :=
    (if 0 < image_count ∧ cfg.destinationExists = false then [destination] else []) ++
      (if 0 < video_count ∧ cfg.videoDestinationExists = false then [video_destination] else [])
  let items := collectItems sources
  let trace :=
    copyLoop cfg.initials destination video_destination image_index_places video_index_places
      items 1 1
  ⟨sources, image_count, video_count, image_index_places, video_index_places,
    destination, video_destination, mkdirs, items, trace⟩

end Curator

namespace Curator

/-! ### Generic lemmas about the sorting and deduplication helpers -/

theorem insertSorted_perm {α : Type} (le : α → α → Bool) (a : α) (l : List α) :
    List.Perm (insertSorted le a l) (a :: l) := by
  induction l with
  | nil => exact List.Perm.refl _
  | cons b bs ih =>
      rw [insertSorted]
      by_cases h : le a b = true
      · rw [if_pos h]
      · rw [if_neg h]
        exact (ih.cons b).trans (List.Perm.swap a b bs)

theorem sortBy_perm {α : Type} (le : α → α → Bool) (l : List α) :
    List.Perm (sortBy le l) l := by
  induction l with
  | nil => exact List.Perm.refl _
  | cons a as ih =>
      rw [sortBy]
      exact (insertSorted_perm le a (sortBy le as)).trans (ih.cons a)

theorem mem_insertSorted {α : Type} (le : α → α → Bool) (a x : α) (l : List α) :
    x ∈ insertSorted le a l ↔ x = a ∨ x ∈ l := by
  rw [(insertSorted_perm le a l).mem_iff, List.mem_cons]

theorem pairwise_insertSorted {α : Type} {le : α → α → Bool}
    (htot : ∀ a b, le a b = true ∨ le b a = true)
    (htrans : ∀ a b c, le a b = true → le b c = true → le a c = true)
    (a : α) (l : List α) (h : List.Pairwise (fun x y => le x y = true) l) :
    List.Pairwise (fun x y => le x y = true) (insertSorted le a l) := by
  induction l with
  | nil => simp [insertSorted]
  | cons b bs ih =>
      rcases List.pairwise_cons.mp h with ⟨hb, hbs⟩
      rw [insertSorted]
      by_cases hab : le a b = true
      · rw [if_pos hab]
        refine List.pairwise_cons.mpr ⟨?_, h⟩
        intro x hx
        rcases List.mem_cons.mp hx with rfl | hx
        · exact hab
        · exact htrans a b x hab (hb x hx)
      · rw [if_neg hab]
        refine List.pairwise_cons.mpr ⟨?_, ih hbs⟩
        intro x hx
        rcases (mem_insertSorted le a x bs).mp hx with rfl | hx
        · cases htot x b with
          | inl h1 => exact absurd h1 hab
          | inr h1 => exact h1
        · exact hb x hx

theorem sortBy_sorted {α : Type} {le : α → α → Bool}
    (htot : ∀ a b, le a b = true ∨ le b a = true)
    (htrans : ∀ a b c, le a b = true → le b c = true → le a c = true)
    (l : List α) :
    List.Pairwise (fun x y => le x y = true) (sortBy le l) := by
  induction l with
  | nil => simp [sortBy]
  | cons a as ih => exact pairwise_insertSorted htot htrans a (sortBy le as) ih

theorem mem_of_mem_dedupByPath {t : Source} : ∀ {l : List Source}, t ∈ dedupByPath l → t ∈ l := by
  intro l
  induction l with
  | nil =>
      intro h
      simp [dedupByPath] at h
  | cons s rest ih =>
      intro h
      rw [dedupByPath] at h
      rcases List.mem_cons.mp h with rfl | h
      · exact List.mem_cons_self _ _
      · exact List.mem_cons_of_mem s (ih (List.mem_of_mem_filter h))

theorem exists_mem_dedupByPath {s : Source} : ∀ {l : List Source}, s ∈ l →
    ∃ t ∈ dedupByPath l, t.path = s.path := by
  intro l
  induction l with
  | nil => intro h; cases h
  | cons x rest ih =>
      intro h
      rcases List.mem_cons.mp h with hsx | h
      · exact ⟨x, by rw [dedupByPath]; exact List.mem_cons_self _ _, by rw [hsx]⟩
      · rcases ih h with ⟨t, ht, hpath⟩
        by_cases hx : t.path = x.path
        · exact ⟨x, by rw [dedupByPath]; exact List.mem_cons_self _ _, by rw [← hx, hpath]⟩
        · refine ⟨t, ?_, hpath⟩
          rw [dedupByPath]
          exact List.mem_cons_of_mem x (List.mem_filter.mpr ⟨ht, by simpa using hx⟩)

theorem nodup_paths_dedupByPath : ∀ (l : List Source),
    List.Nodup ((dedupByPath l).map Source.path) := by
  intro l
  induction l with
  | nil => simp [dedupByPath]
  | cons s rest ih =>
      rw [dedupByPath, List.map_cons]
      refine List.nodup_cons.mpr ⟨?_, ?_⟩
      · intro hmem
        rcases List.mem_map.mp hmem with ⟨t, ht, hpath⟩
        have := (List.mem_filter.mp ht).2
        simp only [decide_eq_true_eq] at this
        exact this hpath
      · exact List.Sublist.nodup (List.Sublist.map Source.path (List.filter_sublist _)) ih

/-! ### The path order is total and transitive -/

theorem eq_of_toNat_eq {c d : Char} (h : c.toNat = d.toNat) : c = d := by
  have h2 : Char.ofNat c.toNat = Char.ofNat d.toNat := by rw [h]
  rwa [Char.ofNat_toNat, Char.ofNat_toNat] at h2

theorem strLtB_cons_iff (x y : Char) (xs ys : List Char) :
    strLtB (x :: xs) (y :: ys) = true ↔
      x.toNat < y.toNat ∨ (x.toNat = y.toNat ∧ strLtB xs ys = true) := by
  rw [strLtB]
  by_cases h1 : x.toNat < y.toNat
  · simp [h1]
  · rw [if_neg h1]
    by_cases h2 : y.toNat < x.toNat
    · rw [if_pos h2]
      constructor
      · intro h
        exact absurd h (by decide)
      · intro h
        rcases h with h | ⟨h, _⟩
        · exact absurd h h1
        · omega
    · rw [if_neg h2]
      have hxy : x.toNat = y.toNat := by omega
      simp [h1, hxy]

theorem strLtB_false_iff (x y : Char) (xs ys : List Char) :
    strLtB (x :: xs) (y :: ys) = false ↔
      ¬(x.toNat < y.toNat ∨ (x.toNat = y.toNat ∧ strLtB xs ys = true)) := by
  rw [← strLtB_cons_iff]
  exact Bool.eq_false_iff.trans (Iff.rfl)

theorem strLtB_trans : ∀ {a b c : List Char},
    strLtB a b = true → strLtB b c = true → strLtB a c = true := by
  intro a
  induction a with
  | nil =>
      intro b c hab hbc
      cases b with
      | nil => exact absurd hab (by simp [strLtB])
      | cons y ys =>
          cases c with
          | nil => exact absurd hbc (by simp [strLtB])
          | cons z zs => rfl
  | cons x xs ih =>
      intro b c hab hbc
      cases b with
      | nil => exact absurd hab (by simp [strLtB])
      | cons y ys =>
          cases c with
          | nil => exact absurd hbc (by simp [strLtB])
          | cons z zs =>
              rw [strLtB_cons_iff] at hab hbc ⊢
              rcases hab with hab | ⟨hab, hab2⟩
              · rcases hbc with hbc | ⟨hbc, _⟩
                · exact Or.inl (by omega)
                · exact Or.inl (by omega)
              · rcases hbc with hbc | ⟨hbc, hbc2⟩
                · exact Or.inl (by omega)
                · exact Or.inr ⟨by omega, ih hab2 hbc2⟩

theorem strLtB_conn : ∀ {a b : List Char},
    strLtB a b = false → strLtB b a = false → a = b := by
  intro a
  induction a with
  | nil =>
      intro b hab _
      cases b with
      | nil => rfl
      | cons y ys => exact absurd hab (by simp [strLtB])
  | cons x xs ih =>
      intro b hab hba
      cases b with
      | nil => exact absurd hba (by simp [strLtB])
      | cons y ys =>
          rw [strLtB_false_iff] at hab hba
          push_neg at hab hba
          have hxy : x.toNat = y.toNat := by
            have h1 := hab.1
            have h2 := hba.1
            omega
          have hxs : strLtB xs ys = false := by
            have := hab.2 hxy
            exact Bool.eq_false_iff.mpr this
          have hys : strLtB ys xs = false := by
            have := hba.2 hxy.symm
            exact Bool.eq_false_iff.mpr this
          rw [eq_of_toNat_eq hxy, ih hxs hys]


theorem string_eq_of_data {s t : String} (h : s.data = t.data) : s = t := by
  cases s
  cases t
  simp only at h
  rw [h]

theorem pathLeB_total : ∀ (a b : List String), pathLeB a b = true ∨ pathLeB b a = true := by
  intro a
  induction a with
  | nil => intro b; left; rfl
  | cons s ss ih =>
      intro b
      cases b with
      | nil => right; rfl
      | cons t ts =>
          rw [pathLeB, pathLeB]
          by_cases hst : strLtB s.data t.data = true
          · left; rw [if_pos hst]
          · by_cases hts : strLtB t.data s.data = true
            · right; rw [if_pos hts]
            · rw [if_neg hst, if_neg hts, if_neg hts, if_neg hst]
              exact ih ts

theorem pathLeB_cons_iff (s t : String) (ss ts : List String) :
    pathLeB (s :: ss) (t :: ts) = true ↔
      strLtB s.data t.data = true ∨
        (strLtB s.data t.data = false ∧ strLtB t.data s.data = false ∧ pathLeB ss ts = true) := by
  rw [pathLeB]
  by_cases h1 : strLtB s.data t.data = true
  · simp [h1]
  · rw [if_neg h1]
    by_cases h2 : strLtB t.data s.data = true
    · rw [if_pos h2]
      constructor
      · intro h
        exact absurd h (by decide)
      · intro h
        rcases h with h | ⟨_, h, _⟩
        · exact absurd h h1
        · rw [h2] at h
          exact absurd h (by decide)
    · rw [if_neg h2]
      simp [Bool.eq_false_iff.mpr h1, Bool.eq_false_iff.mpr h2]

theorem pathLeB_trans : ∀ {a b c : List String},
    pathLeB a b = true → pathLeB b c = true → pathLeB a c = true := by
  intro a
  induction a with
  | nil => intro b c _ _; rfl
  | cons s ss ih =>
      intro b c hab hbc
      cases b with
      | nil => exact absurd hab (by simp [pathLeB])
      | cons t ts =>
          cases c with
          | nil => exact absurd hbc (by simp [pathLeB])
          | cons u us =>
              rw [pathLeB_cons_iff] at hab hbc ⊢
              rcases hab with hab | ⟨hab1, hab2, hab3⟩
              · rcases hbc with hbc | ⟨hbc1, hbc2, hbc3⟩
                · exact Or.inl (strLtB_trans hab hbc)
                · have htu : t = u := string_eq_of_data (strLtB_conn hbc1 hbc2)
                  exact Or.inl (htu ▸ hab)
              · have hst : s = t := string_eq_of_data (strLtB_conn hab1 hab2)
                subst hst
                rcases hbc with hbc | ⟨hbc1, hbc2, hbc3⟩
                · exact Or.inl hbc
                · exact Or.inr ⟨hbc1, hbc2, ih hab3 hbc3⟩


theorem mtimeLeB_total : ∀ (a b : FItem), mtimeLeB a b = true ∨ mtimeLeB b a = true := by
  intro a b
  simp only [mtimeLeB, Nat.ble_eq]
  omega

theorem mtimeLeB_trans : ∀ (a b c : FItem),
    mtimeLeB a b = true → mtimeLeB b c = true → mtimeLeB a c = true := by
  intro a b c
  simp only [mtimeLeB, Nat.ble_eq]
  omega

theorem sourceLeB_total : ∀ (a b : Source), sourceLeB a b = true ∨ sourceLeB b a = true := by
  intro a b
  exact pathLeB_total a.path b.path

theorem sourceLeB_trans : ∀ (a b c : Source),
    sourceLeB a b = true → sourceLeB b c = true → sourceLeB a c = true := by
  intro a b c hab hbc
  exact pathLeB_trans hab hbc

end Curator

namespace Curator

/-! ### Decimal representation: properties of `pyStr` -/

/-- The decimal digits of `n`, most significant first (proof-side
description of what `toDigitsAux` emits). -/
def natDigits (n : Nat) : List Nat :=
  if n < 10 then [n] else natDigits (n / 10) ++ [n % 10]
termination_by n
decreasing_by
  exact Nat.div_lt_self (by omega) (by omega)

/-- The ASCII character of a decimal digit. -/
def digitChar (d : Nat) : Char := Char.ofNat (48 + d)

/-- The character list of the decimal representation of `n`. -/
def charDigits (n : Nat) : List Char := (natDigits n).map digitChar

theorem toDigitsAux_eq : ∀ (fuel n : Nat) (acc : List Char), n < fuel →
    toDigitsAux fuel n acc = charDigits n ++ acc := by
  intro fuel
  induction fuel with
  | zero => intro n acc h; omega
  | succ fuel ih =>
      intro n acc h
      rw [toDigitsAux]
      by_cases h10 : n < 10
      · rw [if_pos h10]
        have : charDigits n = [digitChar n] := by
          rw [charDigits, natDigits, if_pos h10, List.map_cons, List.map_nil]
        rw [this]
        have hmod : n % 10 = n := Nat.mod_eq_of_lt h10
        rw [digitChar, hmod]
        rfl
      · rw [if_neg h10]
        have hdiv : n / 10 < fuel := by
          have := Nat.div_lt_self (n := n) (by omega) (by omega : 1 < 10)
          omega
        rw [ih (n / 10) _ hdiv]
        have : charDigits n = charDigits (n / 10) ++ [digitChar (n % 10)] := by
          rw [charDigits, natDigits, if_neg h10, List.map_append, List.map_cons, List.map_nil]
          rfl
        rw [this, List.append_assoc]
        rfl

theorem pyStr_data (n : Nat) : (pyStr n).data = charDigits n := by
  rw [pyStr]
  rw [toDigitsAux_eq (n + 1) n [] (by omega), List.append_nil]

theorem natDigits_lt_ten (n : Nat) : ∀ d ∈ natDigits n, d < 10 := by
  induction n using natDigits.induct with
  | case1 n h =>
      intro d hd
      rw [natDigits, if_pos h] at hd
      rcases List.mem_singleton.mp hd with rfl
      exact h
  | case2 n h ih =>
      intro d hd
      rw [natDigits, if_neg h] at hd
      rcases List.mem_append.mp hd with hd | hd
      · exact ih d hd
      · rcases List.mem_singleton.mp hd with rfl
        omega

theorem natDigits_head (n : Nat) :
    ∃ d ds, natDigits n = d :: ds ∧ d < 10 ∧ (1 ≤ n → 1 ≤ d) := by
  induction n using natDigits.induct with
  | case1 n h =>
      refine ⟨n, [], ?_, h, fun h1 => h1⟩
      rw [natDigits, if_pos h]
  | case2 n h ih =>
      rcases ih with ⟨d, ds, hds, hd10, hd1⟩
      refine ⟨d, ds ++ [n % 10], ?_, hd10, fun _ => hd1 (by omega)⟩
      rw [natDigits, if_neg h, hds]
      rfl

/-- Value of a digit list, most significant first. -/
def digitsVal (l : List Nat) : Nat := l.foldl (fun acc d => 10 * acc + d) 0

theorem digitsVal_natDigits (n : Nat) : digitsVal (natDigits n) = n := by
  induction n using natDigits.induct with
  | case1 n h =>
      rw [natDigits, if_pos h]
      simp [digitsVal]
  | case2 n h ih =>
      rw [natDigits, if_neg h]
      rw [digitsVal, List.foldl_append]
      rw [digitsVal] at ih
      rw [ih]
      simp only [List.foldl_cons, List.foldl_nil]
      omega

theorem natDigits_inj {a b : Nat} (h : natDigits a = natDigits b) : a = b := by
  rw [← digitsVal_natDigits a, ← digitsVal_natDigits b, h]

theorem digitChar_inj : ∀ d, d < 10 → ∀ e, e < 10 → digitChar d = digitChar e → d = e := by
  decide

theorem map_digitChar_inj : ∀ (xs ys : List Nat), (∀ d ∈ xs, d < 10) → (∀ d ∈ ys, d < 10) →
    xs.map digitChar = ys.map digitChar → xs = ys := by
  intro xs
  induction xs with
  | nil =>
      intro ys _ _ h
      cases ys with
      | nil => rfl
      | cons y ys => exact absurd h (by simp)
  | cons x xs ih =>
      intro ys hxs hys h
      cases ys with
      | nil => exact absurd h (by simp)
      | cons y ys =>
          simp only [List.map_cons, List.cons.injEq] at h
          have hx := hxs x (List.mem_cons_self _ _)
          have hy := hys y (List.mem_cons_self _ _)
          rw [digitChar_inj x hx y hy h.1,
            ih ys (fun d hd => hxs d (List.mem_cons_of_mem _ hd))
              (fun d hd => hys d (List.mem_cons_of_mem _ hd)) h.2]

theorem charDigits_inj {a b : Nat} (h : charDigits a = charDigits b) : a = b :=
  natDigits_inj (map_digitChar_inj _ _ (natDigits_lt_ten a) (natDigits_lt_ten b) h)

theorem digitChar_ne_zero : ∀ d, d < 10 → 1 ≤ d → digitChar d ≠ '0' := by
  decide

theorem digitChar_range : ∀ d, d < 10 → 48 ≤ (digitChar d).toNat ∧ (digitChar d).toNat ≤ 57 := by
  decide

theorem charDigits_head (n : Nat) (hn : 1 ≤ n) :
    ∃ c cs, charDigits n = c :: cs ∧ c ≠ '0' ∧ 48 ≤ c.toNat ∧ c.toNat ≤ 57 := by
  rcases natDigits_head n with ⟨d, ds, hds, hd10, hd1⟩
  refine ⟨digitChar d, ds.map digitChar, ?_, ?_, ?_⟩
  · rw [charDigits, hds, List.map_cons]
  · exact digitChar_ne_zero d hd10 (hd1 hn)
  · exact digitChar_range d hd10

theorem charDigits_digits (n : Nat) : ∀ c ∈ charDigits n, 48 ≤ c.toNat ∧ c.toNat ≤ 57 := by
  intro c hc
  rcases List.mem_map.mp hc with ⟨d, hd, rfl⟩
  exact digitChar_range d (natDigits_lt_ten n d hd)

theorem natDigits_length_eq (n : Nat) (hn : n ≠ 0) :
    (natDigits n).length = (Nat.digits 10 n).length := by
  induction n using natDigits.induct with
  | case1 n h =>
      rw [natDigits, if_pos h]
      rw [Nat.digits_def' (by omega : 1 < 10) (by omega : 0 < n)]
      have h1 : n / 10 = 0 := by omega
      rw [h1, Nat.digits_zero]
      rfl
  | case2 n h ih =>
      rw [natDigits, if_neg h]
      rw [Nat.digits_def' (by omega : 1 < 10) (by omega : 0 < n)]
      rw [List.length_append, List.length_cons]
      rw [ih (by omega)]
      simp

theorem natDigits_zero_length : (natDigits 0).length = 1 := by
  rw [natDigits]
  rfl

end Curator

namespace Curator

/-! ### Injectivity of generated destination names -/

theorem replicate_zero_append_inj : ∀ (k₁ k₂ : Nat) (xs ys : List Char),
    (∀ c, xs.head? = some c → c ≠ '0') → (∀ c, ys.head? = some c → c ≠ '0') →
    List.replicate k₁ '0' ++ xs = List.replicate k₂ '0' ++ ys → k₁ = k₂ ∧ xs = ys := by
  intro k₁
  induction k₁ with
  | zero =>
      intro k₂ xs ys hx hy h
      cases k₂ with
      | zero =>
          refine ⟨rfl, ?_⟩
          simpa using h
      | succ j =>
          rw [List.replicate_succ] at h
          simp only [List.replicate_zero, List.nil_append, List.cons_append] at h
          exact absurd rfl (hx '0' (by rw [h]; rfl))
  | succ i ih =>
      intro k₂ xs ys hx hy h
      cases k₂ with
      | zero =>
          rw [List.replicate_succ] at h
          simp only [List.replicate_zero, List.nil_append, List.cons_append] at h
          exact absurd rfl (hy '0' (by rw [← h]; rfl))
      | succ j =>
          rw [List.replicate_succ, List.replicate_succ] at h
          simp only [List.cons_append, List.cons.injEq, true_and] at h
          rcases ih j xs ys hx hy h with ⟨h1, h2⟩
          exact ⟨by omega, h2⟩

theorem digits_dot_split : ∀ (xs ys u v : List Char),
    (∀ c ∈ xs, 48 ≤ c.toNat ∧ c.toNat ≤ 57) → (∀ c ∈ ys, 48 ≤ c.toNat ∧ c.toNat ≤ 57) →
    u.head? = some '.' → v.head? = some '.' →
    xs ++ u = ys ++ v → xs = ys ∧ u = v := by
  intro xs
  induction xs with
  | nil =>
      intro ys u v _ hys hu hv h
      cases ys with
      | nil =>
          refine ⟨rfl, ?_⟩
          simpa using h
      | cons y ys =>
          simp only [List.nil_append, List.cons_append] at h
          have h2 : u.head? = some y := by rw [h]; rfl
          have h3 : y = '.' := Option.some.inj (h2.symm.trans hu)
          have hy := hys y (List.mem_cons_self _ _)
          rw [h3] at hy
          exact absurd hy (by decide)
  | cons x xs ih =>
      intro ys u v hxs hys hu hv h
      cases ys with
      | nil =>
          simp only [List.nil_append, List.cons_append] at h
          have h2 : v.head? = some x := by rw [← h]; rfl
          have h3 : x = '.' := Option.some.inj (h2.symm.trans hv)
          have hx := hxs x (List.mem_cons_self _ _)
          rw [h3] at hx
          exact absurd hx (by decide)
      | cons y ys =>
          simp only [List.cons_append, List.cons.injEq] at h
          rcases h with ⟨hxy, h2⟩
          rcases ih ys u v (fun c hc => hxs c (List.mem_cons_of_mem _ hc))
            (fun c hc => hys c (List.mem_cons_of_mem _ hc)) hu hv h2 with ⟨ha, hb⟩
          exact ⟨by rw [hxy, ha], hb⟩

theorem ITEM_FORMAT_data (initials index extension : String) :
    (ITEM_FORMAT initials index extension).data =
      initials.data ++ '_' :: (index.data ++ extension.data) := by
  rw [ITEM_FORMAT]
  have h1 : ("_" : String).data = ['_'] := rfl
  simp [String.data_append, h1, List.append_assoc]

theorem rjust_pyStr_data (k w : Nat) :
    (rjust (pyStr k) w '0').data =
      List.replicate (w - (charDigits k).length) '0' ++ charDigits k := by
  rw [rjust, pyStr_data]

theorem itemName_inj {a b : Nat} (ha : 1 ≤ a) (hb : 1 ≤ b) {I ea eb : String} {wa wb : Nat}
    (hea : ea.data.head? = some '.') (heb : eb.data.head? = some '.')
    (h : ITEM_FORMAT I (rjust (pyStr a) wa '0') ea = ITEM_FORMAT I (rjust (pyStr b) wb '0') eb) :
    a = b ∧ ea = eb := by
  have hd := congrArg String.data h
  rw [ITEM_FORMAT_data, ITEM_FORMAT_data] at hd
  have hd2 := List.append_cancel_left hd
  have hd3 : (rjust (pyStr a) wa '0').data ++ ea.data =
      (rjust (pyStr b) wb '0').data ++ eb.data := by
    simpa using hd2
  rw [rjust_pyStr_data, rjust_pyStr_data, List.append_assoc, List.append_assoc] at hd3
  rcases charDigits_head a ha with ⟨ca, cas, hca, hca0, _⟩
  rcases charDigits_head b hb with ⟨cb, cbs, hcb, hcb0, _⟩
  have hsplit := replicate_zero_append_inj _ _ _ _
    (fun c hc => by
      rw [hca, List.cons_append] at hc
      rw [← Option.some.inj hc]
      exact hca0)
    (fun c hc => by
      rw [hcb, List.cons_append] at hc
      rw [← Option.some.inj hc]
      exact hcb0)
    hd3
  rcases hsplit with ⟨_, hrest⟩
  rcases digits_dot_split _ _ _ _ (charDigits_digits a) (charDigits_digits b) hea heb hrest
    with ⟨hdig, hext⟩
  exact ⟨charDigits_inj hdig, string_eq_of_data hext⟩

end Curator

namespace Curator

/-! ### The copy loop: indices, notices, destinations -/

/-- The index recorded by an image-copy event. -/
def Event.imageIdx : Event → Option Nat
  | .copyImage _ _ i => some i
  | _ => none

/-- The index recorded by a video-copy event. -/
def Event.videoIdx : Event → Option Nat
  | .copyVideo _ _ i => some i
  | _ => none

/-- The source named by a skip notice. -/
def Event.ignoredSrc : Event → Option (List String)
  | .ignore src => some src
  | _ => none

/-- The destination path of a copy event. -/
def Event.dst : Event → Option (List String)
  | .copyImage _ d _ => some d
  | .copyVideo _ d _ => some d
  | .ignore _ => none

/-- The image branch guard of line 163. -/
def isImageB (it : FItem) : Bool := decide (it.filetype ∈ KNOWN_IMAGE_TYPES)

/-- The video branch guard of line 173, reachable only past the image guard. -/
def isVideoB (it : FItem) : Bool :=
  !(isImageB it) && decide (it.filetype ∈ KNOWN_VIDEO_TYPES)

/-- The fall-through guard of line 183. -/
def isUnknownB (it : FItem) : Bool :=
  !(isImageB it) && !(decide (it.filetype ∈ KNOWN_VIDEO_TYPES))

theorem copyLoop_spec (initials : String) (dest vdest : List String) (ipl vpl : Nat) :
    ∀ (items : List FItem) (ii vi : Nat),
      (copyLoop initials dest vdest ipl vpl items ii vi).filterMap Event.imageIdx =
          List.range' ii (items.countP isImageB) ∧
      (copyLoop initials dest vdest ipl vpl items ii vi).filterMap Event.videoIdx =
          List.range' vi (items.countP isVideoB) ∧
      (copyLoop initials dest vdest ipl vpl items ii vi).filterMap Event.ignoredSrc =
          (items.filter isUnknownB).map FItem.path := by
  intro items
  induction items with
  | nil =>
      intro ii vi
      refine ⟨?_, ?_, ?_⟩ <;> simp [copyLoop]
  | cons it rest ih =>
      intro ii vi
      rw [copyLoop]
      by_cases h1 : it.filetype ∈ KNOWN_IMAGE_TYPES
      · rw [if_pos h1]
        rcases ih (ii + 1) vi with ⟨e1, e2, e3⟩
        have him : isImageB it = true := by simp [isImageB, h1]
        have hvv : isVideoB it = false := by simp [isVideoB, him]
        have hun : isUnknownB it = false := by simp [isUnknownB, him]
        refine ⟨?_, ?_, ?_⟩
        · rw [List.filterMap_cons]
          simp only [Event.imageIdx]
          rw [e1, List.countP_cons_of_pos _ _ him, List.range'_succ]
        · rw [List.filterMap_cons]
          simp only [Event.videoIdx]
          rw [e2, List.countP_cons_of_neg _ _ (by simp [hvv])]
        · rw [List.filterMap_cons]
          simp only [Event.ignoredSrc]
          rw [e3, List.filter_cons_of_neg (by simp [hun])]
      · rw [if_neg h1]
        by_cases h2 : it.filetype ∈ KNOWN_VIDEO_TYPES
        · rw [if_pos h2]
          rcases ih ii (vi + 1) with ⟨e1, e2, e3⟩
          have him : isImageB it = false := by simp [isImageB, h1]
          have hvv : isVideoB it = true := by simp [isVideoB, him, h2]
          have hun : isUnknownB it = false := by simp [isUnknownB, him, h2]
          refine ⟨?_, ?_, ?_⟩
          · rw [List.filterMap_cons]
            simp only [Event.imageIdx]
            rw [e1, List.countP_cons_of_neg _ _ (by simp [him])]
          · rw [List.filterMap_cons]
            simp only [Event.videoIdx]
            rw [e2, List.countP_cons_of_pos _ _ hvv, List.range'_succ]
          · rw [List.filterMap_cons]
            simp only [Event.ignoredSrc]
            rw [e3, List.filter_cons_of_neg (by simp [hun])]
        · rw [if_neg h2]
          rcases ih ii vi with ⟨e1, e2, e3⟩
          have him : isImageB it = false := by simp [isImageB, h1]
          have hvv : isVideoB it = false := by simp [isVideoB, him, h2]
          have hun : isUnknownB it = true := by simp [isUnknownB, him, h2]
          refine ⟨?_, ?_, ?_⟩
          · rw [List.filterMap_cons]
            simp only [Event.imageIdx]
            rw [e1, List.countP_cons_of_neg _ _ (by simp [him])]
          · rw [List.filterMap_cons]
            simp only [Event.videoIdx]
            rw [e2, List.countP_cons_of_neg _ _ (by simp [hvv])]
          · rw [List.filterMap_cons]
            simp only [Event.ignoredSrc]
            rw [e3, List.filter_cons_of_pos (by simp [hun])]
            rfl

end Curator

namespace Curator

theorem ext_head_IMAGE : ∀ e ∈ KNOWN_IMAGE_TYPES, e.data.head? = some '.' := by
  decide

theorem ext_head_VIDEO : ∀ e ∈ KNOWN_VIDEO_TYPES, e.data.head? = some '.' := by
  decide

theorem copyLoop_dst_mem (initials : String) (dest vdest : List String) (ipl vpl : Nat) :
    ∀ (items : List FItem) (ii vi : Nat) (d : List String),
      d ∈ (copyLoop initials dest vdest ipl vpl items ii vi).filterMap Event.dst →
      (∃ k ext, ii ≤ k ∧ ext ∈ KNOWN_IMAGE_TYPES ∧
          d = dest ++ [ITEM_FORMAT initials (rjust (pyStr k) ipl '0') ext] ∧
          ∃ it ∈ items, isImageB it = true) ∨
      (∃ k ext, vi ≤ k ∧ ext ∈ KNOWN_VIDEO_TYPES ∧
          d = vdest ++ [ITEM_FORMAT initials (rjust (pyStr k) vpl '0') ext] ∧
          ∃ it ∈ items, isVideoB it = true) := by
  intro items
  induction items with
  | nil =>
      intro ii vi d hd
      simp [copyLoop] at hd
  | cons it rest ih =>
      intro ii vi d hd
      rw [copyLoop] at hd
      by_cases h1 : it.filetype ∈ KNOWN_IMAGE_TYPES
      · rw [if_pos h1, List.filterMap_cons] at hd
        simp only [Event.dst] at hd
        rcases List.mem_cons.mp hd with rfl | hd
        · exact Or.inl ⟨ii, it.filetype, le_refl _, h1, rfl, it, List.mem_cons_self _ _,
            by simp [isImageB, h1]⟩
        · rcases ih (ii + 1) vi d hd with
            ⟨k, ext, hk, hext, hdeq, it', hit', hcls⟩ | ⟨k, ext, hk, hext, hdeq, it', hit', hcls⟩
          · exact Or.inl ⟨k, ext, by omega, hext, hdeq, it', List.mem_cons_of_mem _ hit', hcls⟩
          · exact Or.inr ⟨k, ext, hk, hext, hdeq, it', List.mem_cons_of_mem _ hit', hcls⟩
      · rw [if_neg h1] at hd
        by_cases h2 : it.filetype ∈ KNOWN_VIDEO_TYPES
        · rw [if_pos h2, List.filterMap_cons] at hd
          simp only [Event.dst] at hd
          rcases List.mem_cons.mp hd with rfl | hd
          · exact Or.inr ⟨vi, it.filetype, le_refl _, h2, rfl, it, List.mem_cons_self _ _,
              by simp [isVideoB, isImageB, h1, h2]⟩
          · rcases ih ii (vi + 1) d hd with
              ⟨k, ext, hk, hext, hdeq, it', hit', hcls⟩ | ⟨k, ext, hk, hext, hdeq, it', hit', hcls⟩
            · exact Or.inl ⟨k, ext, hk, hext, hdeq, it', List.mem_cons_of_mem _ hit', hcls⟩
            · exact Or.inr ⟨k, ext, by omega, hext, hdeq, it', List.mem_cons_of_mem _ hit', hcls⟩
        · rw [if_neg h2, List.filterMap_cons] at hd
          simp only [Event.dst] at hd
          rcases ih ii vi d hd with
            ⟨k, ext, hk, hext, hdeq, it', hit', hcls⟩ | ⟨k, ext, hk, hext, hdeq, it', hit', hcls⟩
          · exact Or.inl ⟨k, ext, hk, hext, hdeq, it', List.mem_cons_of_mem _ hit', hcls⟩
          · exact Or.inr ⟨k, ext, hk, hext, hdeq, it', List.mem_cons_of_mem _ hit', hcls⟩

theorem copyLoop_dst_nodup (initials : String) (dest vdest : List String) (ipl vpl : Nat)
    (hv : vdest = dest ++ [DEFAULT_VIDEO_DIRECTORY] ∨ vdest = dest) :
    ∀ (items : List FItem) (ii vi : Nat), 1 ≤ ii → 1 ≤ vi →
      (vdest = dest → ∀ it ∈ items, isImageB it = false) →
      List.Pairwise (fun a b => a ≠ b)
        ((copyLoop initials dest vdest ipl vpl items ii vi).filterMap Event.dst) := by
  intro items
  induction items with
  | nil =>
      intro ii vi _ _ _
      simp [copyLoop]
  | cons it rest ih =>
      intro ii vi hii hvi himg
      rw [copyLoop]
      by_cases h1 : it.filetype ∈ KNOWN_IMAGE_TYPES
      · rw [if_pos h1, List.filterMap_cons]
        simp only [Event.dst]
        refine List.pairwise_cons.mpr ⟨?_, ih (ii + 1) vi (by omega) hvi
          (fun hvd it' hit' => himg hvd it' (List.mem_cons_of_mem _ hit'))⟩
        intro d hd
        rcases copyLoop_dst_mem initials dest vdest ipl vpl rest (ii + 1) vi d hd with
          ⟨k, ext, hk, hext, hdeq, _, _, _⟩ | ⟨k, ext, hk, hext, hdeq, it', hit', hcls⟩
        · intro heq
          rw [hdeq] at heq
          have hname : ITEM_FORMAT initials (rjust (pyStr ii) ipl '0') it.filetype =
              ITEM_FORMAT initials (rjust (pyStr k) ipl '0') ext := by
            have := List.append_cancel_left heq
            simpa using this
          rcases itemName_inj hii (by omega) (ext_head_IMAGE _ h1) (ext_head_IMAGE _ hext)
            hname with ⟨hik, _⟩
          omega
        · rcases hv with hv | hv
          · intro heq
            rw [hdeq, hv] at heq
            have := congrArg List.length heq
            simp [List.length_append] at this
          · have hf := himg hv it (List.mem_cons_self _ _)
            have ht : isImageB it = true := by simp [isImageB, h1]
            rw [hf] at ht
            exact absurd ht (by decide)
      · rw [if_neg h1]
        by_cases h2 : it.filetype ∈ KNOWN_VIDEO_TYPES
        · rw [if_pos h2, List.filterMap_cons]
          simp only [Event.dst]
          refine List.pairwise_cons.mpr ⟨?_, ih ii (vi + 1) hii (by omega)
            (fun hvd it' hit' => himg hvd it' (List.mem_cons_of_mem _ hit'))⟩
          intro d hd
          rcases copyLoop_dst_mem initials dest vdest ipl vpl rest ii (vi + 1) d hd with
            ⟨k, ext, hk, hext, hdeq, it', hit', hcls⟩ | ⟨k, ext, hk, hext, hdeq, _, _, _⟩
          · rcases hv with hv | hv
            · intro heq
              rw [hdeq, hv] at heq
              have := congrArg List.length heq
              simp [List.length_append] at this
            · intro _
              have hf := himg hv it' (List.mem_cons_of_mem _ hit')
              rw [hf] at hcls
              exact absurd hcls (by decide)
          · intro heq
            rw [hdeq] at heq
            have hname : ITEM_FORMAT initials (rjust (pyStr vi) vpl '0') it.filetype =
                ITEM_FORMAT initials (rjust (pyStr k) vpl '0') ext := by
              have := List.append_cancel_left heq
              simpa using this
            rcases itemName_inj hvi (by omega) (ext_head_VIDEO _ h2) (ext_head_VIDEO _ hext)
              hname with ⟨hik, _⟩
            omega
        · rw [if_neg h2, List.filterMap_cons]
          simp only [Event.dst]
          exact ih ii vi hii hvi (fun hvd it' hit' => himg hvd it' (List.mem_cons_of_mem _ hit'))

end Curator

namespace Curator

/-! ### Counting: the count phase versus the items of the copy phase -/

theorem foldl_append_eq {α β : Type} (f : α → List β) :
    ∀ (l : List α) (acc : List β),
      l.foldl (fun items s => items ++ f s) acc = acc ++ l.flatMap f := by
  intro l
  induction l with
  | nil =>
      intro acc
      simp
  | cons a as ih =>
      intro acc
      rw [List.foldl_cons, ih, List.flatMap_cons, List.append_assoc]

theorem collectItems_eq (sources : List Source) :
    collectItems sources = sources.flatMap (fun s => sortBy mtimeLeB (directFiles s)) := by
  rw [collectItems, foldl_append_eq, List.nil_append]

theorem foldl_add_eq (g : Source → Nat) :
    ∀ (l : List Source) (acc : Nat), l.foldl (fun n s => n + g s) acc = acc + (l.map g).sum := by
  intro l
  induction l with
  | nil =>
      intro acc
      simp
  | cons a as ih =>
      intro acc
      rw [List.foldl_cons, ih, List.map_cons, List.sum_cons]
      omega

theorem count_files_eq (sources : List Source) (desired : List String) :
    count_files sources desired =
      (sources.map (fun s =>
        s.children.countP (fun item => decide (lowerStr (pySuffix item.name) ∈ desired)))).sum := by
  rw [count_files, foldl_add_eq, Nat.zero_add]

theorem filetype_mk (p : List String) (n : String) (m : Nat) :
    FItem.filetype ⟨p ++ [n], m⟩ = lowerStr (pySuffix n) := by
  rw [FItem.filetype]
  simp only [List.getLastD_concat]

theorem countP_directFiles_le (desired : List String) (s : Source) :
    (directFiles s).countP (fun it => decide (it.filetype ∈ desired)) ≤
      s.children.countP (fun item => decide (lowerStr (pySuffix item.name) ∈ desired)) := by
  rw [directFiles]
  induction s.children with
  | nil => simp
  | cons e rest ih =>
      cases e with
      | file n m =>
          rw [List.filterMap_cons]
          simp only []
          by_cases hp : lowerStr (pySuffix n) ∈ desired
          · rw [List.countP_cons_of_pos _ _ (by simp [filetype_mk, hp]),
              List.countP_cons_of_pos _ _ (by simp [Entry.name, hp])]
            omega
          · rw [List.countP_cons_of_neg _ _ (by simp [filetype_mk, hp]),
              List.countP_cons_of_neg _ _ (by simp [Entry.name, hp])]
            exact ih
      | dir n cs =>
          rw [List.filterMap_cons]
          simp only []
          rw [List.countP_cons]
          omega

theorem countItems_le_count_files (sources : List Source) (desired : List String) :
    (collectItems sources).countP (fun it => decide (it.filetype ∈ desired)) ≤
      count_files sources desired := by
  rw [collectItems_eq, count_files_eq]
  induction sources with
  | nil => simp
  | cons s rest ih =>
      rw [List.flatMap_cons, List.countP_append, List.map_cons, List.sum_cons]
      have h1 : (sortBy mtimeLeB (directFiles s)).countP
            (fun it => decide (it.filetype ∈ desired)) =
          (directFiles s).countP (fun it => decide (it.filetype ∈ desired)) :=
        (sortBy_perm mtimeLeB (directFiles s)).countP_eq _
      have h2 := countP_directFiles_le desired s
      omega

/-! ### Source resolution: reachability, duplicates, order -/

/-- Spec-side description of recursive subdirectory discovery: `Descends
path children q` holds when `q` is the path of a directory reachable by
repeatedly descending into subdirectories, starting from a directory at
`path` whose direct children are `children`. -/
inductive Descends : List String → List Entry → List String → Prop where
  | here {path : List String} {children : List Entry} {n : String} {cs : List Entry} :
      Entry.dir n cs ∈ children → Descends path children (path ++ [n])
  | deeper {path : List String} {children : List Entry} {n : String} {cs : List Entry}
      {p : List String} :
      Entry.dir n cs ∈ children → Descends (path ++ [n]) cs p → Descends path children p

theorem Descends_cons_of_rest {path q : List String} {e : Entry} {rest : List Entry}
    (h : Descends path rest q) : Descends path (e :: rest) q := by
  cases h with
  | here hm => exact Descends.here (List.mem_cons_of_mem _ hm)
  | deeper hm hd => exact Descends.deeper (List.mem_cons_of_mem _ hm) hd

theorem Descends_cons_of_singleton {path q : List String} {e : Entry} {rest : List Entry}
    (h : Descends path [e] q) : Descends path (e :: rest) q := by
  cases h with
  | here hm =>
      rw [← List.mem_singleton.mp hm]
      exact Descends.here (List.mem_cons_self _ _)
  | deeper hm hd =>
      rw [← List.mem_singleton.mp hm]
      exact Descends.deeper (List.mem_cons_self _ _) hd

theorem Descends_cons_elim {path q : List String} {e : Entry} {rest : List Entry}
    (h : Descends path (e :: rest) q) : Descends path [e] q ∨ Descends path rest q := by
  cases h with
  | here hm =>
      rcases List.mem_cons.mp hm with heq | hm
      · left
        rw [← heq]
        exact Descends.here (List.mem_cons_self _ _)
      · right
        exact Descends.here hm
  | deeper hm hd =>
      rcases List.mem_cons.mp hm with heq | hm
      · left
        rw [← heq]
        exact Descends.deeper (List.mem_cons_self _ _) hd
      · right
        exact Descends.deeper hm hd

theorem mem_collect_subsources_iff :
    ∀ (l : List Entry) (path : List String), ∀ (q : List String),
      q ∈ (collect_subsources l path).map Source.path ↔ Descends path l q := by
  refine collect_subsources.induct
    (fun e path => ∀ q, q ∈ (entrySubsources e path).map Source.path ↔ Descends path [e] q)
    (fun l path => ∀ q, q ∈ (collect_subsources l path).map Source.path ↔ Descends path l q)
    ?_ ?_ ?_ ?_
  · intro name mtime path q
    rw [entrySubsources]
    simp only [List.map_nil, List.not_mem_nil, false_iff]
    intro h
    cases h with
    | here hm =>
        rw [List.mem_singleton] at hm
        exact Entry.noConfusion hm
    | deeper hm _ =>
        rw [List.mem_singleton] at hm
        exact Entry.noConfusion hm
  · intro n cs path ih q
    rw [entrySubsources]
    simp only [List.map_cons, List.mem_cons]
    constructor
    · intro h
      rcases h with heq | hmem
      · rw [heq]
        exact Descends.here (List.mem_cons_self _ _)
      · exact Descends.deeper (List.mem_cons_self _ _) ((ih q).mp hmem)
    · intro h
      cases h with
      | here hm =>
          rw [List.mem_singleton] at hm
          rcases Entry.dir.injEq _ _ _ _ |>.mp hm with ⟨hn, _⟩
          left
          rw [hn]
      | deeper hm hd =>
          rw [List.mem_singleton] at hm
          rcases Entry.dir.injEq _ _ _ _ |>.mp hm with ⟨hn, hcs⟩
          right
          refine (ih q).mpr ?_
          rw [← hn, ← hcs]
          exact hd
  · intro path q
    rw [collect_subsources]
    simp only [List.map_nil, List.not_mem_nil, false_iff]
    intro h
    cases h with
    | here hm => exact absurd hm (List.not_mem_nil _)
    | deeper hm _ => exact absurd hm (List.not_mem_nil _)
  · intro e rest path ih1 ih2 q
    rw [collect_subsources]
    rw [List.map_append, List.mem_append]
    constructor
    · intro h
      rcases h with h | h
      · exact Descends_cons_of_singleton ((ih1 q).mp h)
      · exact Descends_cons_of_rest ((ih2 q).mp h)
    · intro h
      rcases Descends_cons_elim h with h | h
      · exact Or.inl ((ih1 q).mpr h)
      · exact Or.inr ((ih2 q).mpr h)

theorem mem_paths_dedup_iff (l : List Source) (q : List String) :
    q ∈ (dedupByPath l).map Source.path ↔ q ∈ l.map Source.path := by
  constructor
  · intro h
    rcases List.mem_map.mp h with ⟨t, ht, rfl⟩
    exact List.mem_map.mpr ⟨t, mem_of_mem_dedupByPath ht, rfl⟩
  · intro h
    rcases List.mem_map.mp h with ⟨t, ht, rfl⟩
    rcases exists_mem_dedupByPath ht with ⟨u, hu, hpath⟩
    exact List.mem_map.mpr ⟨u, hu, hpath⟩

theorem mem_resolveSources_iff (supplied : List Source)
    (hcons : ∀ s₁ ∈ supplied, ∀ s₂ ∈ supplied, s₁.path = s₂.path → s₁.children = s₂.children)
    (q : List String) :
    q ∈ (resolveSources supplied).map Source.path ↔
      q ∈ supplied.map Source.path ∨ ∃ s ∈ supplied, Descends s.path s.children q := by
  rw [resolveSources]
  rw [((sortBy_perm sourceLeB _).map Source.path).mem_iff]
  rw [mem_paths_dedup_iff, List.map_append, List.mem_append, mem_paths_dedup_iff]
  constructor
  · intro h
    rcases h with h | h
    · exact Or.inl h
    · rcases List.mem_map.mp h with ⟨t, ht, rfl⟩
      rcases List.mem_flatMap.mp ht with ⟨s, hs, htc⟩
      refine Or.inr ⟨s, mem_of_mem_dedupByPath hs, ?_⟩
      exact (mem_collect_subsources_iff s.children s.path t.path).mp
        (List.mem_map.mpr ⟨t, htc, rfl⟩)
  · intro h
    rcases h with h | h
    · exact Or.inl h
    · rcases h with ⟨s, hs, hd⟩
      rcases exists_mem_dedupByPath hs with ⟨u, hu, hpath⟩
      have hchild : u.children = s.children :=
        hcons u (mem_of_mem_dedupByPath hu) s hs hpath
      right
      rcases List.mem_map.mp ((mem_collect_subsources_iff s.children s.path q).mpr hd)
        with ⟨t, htc, hq⟩
      refine List.mem_map.mpr ⟨t, ?_, hq⟩
      refine List.mem_flatMap.mpr ⟨u, hu, ?_⟩
      rw [hchild, hpath]
      exact htc

theorem nodup_paths_resolveSources (supplied : List Source) :
    List.Nodup ((resolveSources supplied).map Source.path) := by
  rw [resolveSources]
  exact (((sortBy_perm sourceLeB _).map Source.path).nodup_iff).mpr
    (nodup_paths_dedupByPath _)

theorem sorted_paths_resolveSources (supplied : List Source) :
    List.Pairwise (fun a b => pathLeB a b = true) ((resolveSources supplied).map Source.path) := by
  rw [resolveSources]
  refine List.Pairwise.map Source.path (fun a b h => h) ?_
  exact sortBy_sorted sourceLeB_total sourceLeB_trans _

end Curator

namespace Curator

/-! ### Run-level projections (all definitional) -/

theorem run_sources (cfg : Config) : (run cfg).sources = resolveSources cfg.sources := rfl

theorem run_image_count (cfg : Config) :
    (run cfg).image_count = count_files (resolveSources cfg.sources) KNOWN_IMAGE_TYPES := rfl

theorem run_video_count (cfg : Config) :
    (run cfg).video_count = count_files (resolveSources cfg.sources) KNOWN_VIDEO_TYPES := rfl

theorem run_image_index_places (cfg : Config) :
    (run cfg).image_index_places = (pyStr (run cfg).image_count).data.length := rfl

theorem run_video_index_places (cfg : Config) :
    (run cfg).video_index_places = (pyStr (run cfg).video_count).data.length := rfl

theorem video_destination_eq (cfg : Config) :
    (run cfg).video_destination =
      if 0 < (run cfg).video_count ∧ (run cfg).image_count = 0
      then (run cfg).destination
      else (run cfg).destination ++ [DEFAULT_VIDEO_DIRECTORY] := rfl

theorem mkdirs_eq (cfg : Config) :
    (run cfg).mkdirs =
      (if 0 < (run cfg).image_count ∧ cfg.destinationExists = false
        then [(run cfg).destination] else []) ++
      (if 0 < (run cfg).video_count ∧ cfg.videoDestinationExists = false
        then [(run cfg).video_destination] else []) := rfl

theorem run_items (cfg : Config) : (run cfg).items = collectItems (run cfg).sources := rfl

theorem run_trace (cfg : Config) :
    (run cfg).trace =
      copyLoop cfg.initials (run cfg).destination (run cfg).video_destination
        (run cfg).image_index_places (run cfg).video_index_places (run cfg).items 1 1 := rfl

theorem pyStr_length (n : Nat) : (pyStr n).data.length = (natDigits n).length := by
  rw [pyStr_data, charDigits, List.length_map]

namespace Parser

/-- Modelled from the spec: the `argparse` dispatch that reacts to a
malformed command line is standard-library code outside this repository.
Per the spec, a parse error invokes the parser's `error` hook (which prints
one diagnostic and returns instead of exiting) and parsing then proceeds
with best-effort defaults rather than raising a fatal fault. -/
def parseMalformed (message : String) (defaults : Config) : List String × Option Config :=
  (error message, some defaults)

end Parser

/-! ### Example configurations used by concrete parts of the claims -/

/-- Sources `A` (photo.jpg mtime 100, movie.mp4 mtime 50) and `B`
(pic.png mtime 10), as in the spec's copy-order example. -/
def C1cfg : Config :=
  ⟨["dest"], [⟨["A"], [.file "photo.jpg" 100, .file "movie.mp4" 50]⟩,
    ⟨["B"], [.file "pic.png" 10]⟩], "AB", "Album", "2020", "6", false, false⟩

/-- A run whose only child has an unknown extension: both counts are zero. -/
def C4cfg : Config :=
  ⟨["d"], [⟨["s"], [.file "notes.txt" 5]⟩], "A", "Album", "2020", "6", false, false⟩

/-- One supplied source with a nested directory chain and a file. -/
def C5src : List Source :=
  [⟨["r"], [.dir "a" [.dir "b" []], .file "f.txt" 1]⟩]

/-- Two image files, no videos. -/
def C6cfg : Config :=
  ⟨["d"], [⟨["s"], [.file "a.jpg" 1, .file "b.png" 2]⟩], "AB", "Album", "2020", "6", false, false⟩

/-- A source whose only child is a subdirectory named like an image. -/
def C9cfg : Config :=
  ⟨["d"], [⟨["s"], [.dir "x.jpg" []]⟩], "A", "Album", "2020", "6", false, false⟩

/-- Two videos and no images: the video destination collapses onto the
primary destination. -/
def C10cfg : Config :=
  ⟨["d"], [⟨["v"], [.file "m.mp4" 1, .file "n.mp4" 2]⟩], "A", "Album", "2020", "6", false, false⟩

/-! ### The claims -/

/-- Claim C1: the item list of a run is the concatenation, source by source
in resolved order, of each source's direct-child files sorted ascending by
modification timestamp — not a single global chronological sort.  In
particular, for sources `A` (photo.jpg mtime 100, movie.mp4 mtime 50) and
`B` (pic.png mtime 10) the copy order is movie.mp4, photo.jpg, pic.png. -/
theorem C1_copy_order :
    (∀ cfg : Config,
      (run cfg).items = (run cfg).sources.flatMap (fun s => sortBy mtimeLeB (directFiles s)) ∧
      ∀ s ∈ (run cfg).sources,
        List.Pairwise (fun a b : FItem => a.mtime ≤ b.mtime) (sortBy mtimeLeB (directFiles s))) ∧
    (run C1cfg).trace =
      [Event.copyVideo ["A", "movie.mp4"] ["dest", "2020-06 Album", "Clips", "AB_1.mp4"] 1,
       Event.copyImage ["A", "photo.jpg"] ["dest", "2020-06 Album", "AB_1.jpg"] 1,
       Event.copyImage ["B", "pic.png"] ["dest", "2020-06 Album", "AB_2.png"] 2] := by
  constructor
  · intro cfg
    constructor
    · rw [run_items, collectItems_eq]
    · intro s _
      refine List.Pairwise.imp ?_ (sortBy_sorted mtimeLeB_total mtimeLeB_trans (directFiles s))
      intro a b h
      exact Nat.le_of_ble_eq_true h
  · rfl

/-- Companion instance of claim C1 at a concrete configuration. -/
theorem C1_copy_order_witness :
    (run C1cfg).items = (run C1cfg).sources.flatMap (fun s => sortBy mtimeLeB (directFiles s)) :=
  (C1_copy_order.1 C1cfg).1

/-- Claim C2: the image and video indices recorded in a run's trace are
exactly 1, 2, 3, ... — one per item of the corresponding category, counted
across all sources — and the skip notices are exactly one per
unknown-extension item, which therefore moves neither counter. -/
theorem C2_indices :
    ∀ cfg : Config,
      (run cfg).trace.filterMap Event.imageIdx =
          List.range' 1 ((run cfg).items.countP isImageB) ∧
      (run cfg).trace.filterMap Event.videoIdx =
          List.range' 1 ((run cfg).items.countP isVideoB) ∧
      (run cfg).trace.filterMap Event.ignoredSrc =
          ((run cfg).items.filter isUnknownB).map FItem.path := by
  intro cfg
  rw [run_trace]
  exact copyLoop_spec cfg.initials (run cfg).destination (run cfg).video_destination
    (run cfg).image_index_places (run cfg).video_index_places (run cfg).items 1 1

/-- Claim C3: the video destination equals the primary destination exactly
when at least one video and no image is counted; otherwise it is the
`Clips` subdirectory of the primary destination. -/
theorem C3_video_destination :
    ∀ cfg : Config,
      ((run cfg).video_destination = (run cfg).destination ↔
        1 ≤ (run cfg).video_count ∧ (run cfg).image_count = 0) := by
  intro cfg
  rw [video_destination_eq]
  by_cases h : 0 < (run cfg).video_count ∧ (run cfg).image_count = 0
  · rw [if_pos h]
    exact iff_of_true rfl h
  · rw [if_neg h]
    constructor
    · intro heq
      have hlen := congrArg List.length heq
      rw [List.length_append] at hlen
      simp at hlen
    · intro hc
      exact absurd hc h

/-- Claim C4: a directory is created exactly when the corresponding count is
positive and the directory does not already exist; with both counts zero,
nothing is created. -/
theorem C4_mkdir :
    ∀ (cfg : Config) (d : List String),
      (d ∈ (run cfg).mkdirs ↔
        (d = (run cfg).destination ∧ 0 < (run cfg).image_count ∧
          cfg.destinationExists = false) ∨
        (d = (run cfg).video_destination ∧ 0 < (run cfg).video_count ∧
          cfg.videoDestinationExists = false)) ∧
      ((run cfg).image_count = 0 → (run cfg).video_count = 0 → (run cfg).mkdirs = []) := by
  intro cfg d
  constructor
  · rw [mkdirs_eq, List.mem_append]
    constructor
    · intro h
      rcases h with h | h
      · by_cases h1 : 0 < (run cfg).image_count ∧ cfg.destinationExists = false
        · rw [if_pos h1] at h
          exact Or.inl ⟨List.mem_singleton.mp h, h1⟩
        · rw [if_neg h1] at h
          exact absurd h (List.not_mem_nil d)
      · by_cases h2 : 0 < (run cfg).video_count ∧ cfg.videoDestinationExists = false
        · rw [if_pos h2] at h
          exact Or.inr ⟨List.mem_singleton.mp h, h2⟩
        · rw [if_neg h2] at h
          exact absurd h (List.not_mem_nil d)
    · intro h
      rcases h with ⟨rfl, h1⟩ | ⟨rfl, h2⟩
      · left
        rw [if_pos h1]
        exact List.mem_singleton_self _
      · right
        rw [if_pos h2]
        exact List.mem_singleton_self _
  · intro hi hv
    rw [mkdirs_eq]
    rw [if_neg (by rw [hi]; intro hc; exact absurd hc.1 (by omega)),
      if_neg (by rw [hv]; intro hc; exact absurd hc.1 (by omega))]
    rfl

/-- Companion instance of claim C4: both counts zero at a concrete
configuration, so no directory is created. -/
theorem C4_mkdir_witness : (run C4cfg).mkdirs = [] :=
  (C4_mkdir C4cfg []).2 rfl rfl

end Curator

namespace Curator

/-- Claim C5: for consistent input trees (two references to the same
directory path see the same children), the resolved source list contains
exactly the supplied directories plus every directory reachable by
repeatedly descending into subdirectories, with no duplicate paths, sorted
by path. -/
theorem C5_resolved_sources :
    ∀ (supplied : List Source),
      (∀ s₁ ∈ supplied, ∀ s₂ ∈ supplied, s₁.path = s₂.path → s₁.children = s₂.children) →
      (∀ q, q ∈ (resolveSources supplied).map Source.path ↔
          q ∈ supplied.map Source.path ∨ ∃ s ∈ supplied, Descends s.path s.children q) ∧
      List.Nodup ((resolveSources supplied).map Source.path) ∧
      List.Pairwise (fun a b => pathLeB a b = true) ((resolveSources supplied).map Source.path) := by
  intro supplied hcons
  exact ⟨mem_resolveSources_iff supplied hcons, nodup_paths_resolveSources supplied,
    sorted_paths_resolveSources supplied⟩

/-- Companion instance of claim C5: the nested directory `r/a/b` is listed,
and the resolved paths are duplicate-free. -/
theorem C5_resolved_sources_witness :
    ["r", "a", "b"] ∈ (resolveSources C5src).map Source.path ∧
      List.Nodup ((resolveSources C5src).map Source.path) := by
  have h := C5_resolved_sources C5src (by
    intro s₁ h₁ s₂ h₂ _
    rw [List.mem_singleton.mp h₁, List.mem_singleton.mp h₂])
  refine ⟨(h.1 ["r", "a", "b"]).mpr ?_, h.2.1⟩
  refine Or.inr ⟨⟨["r"], [.dir "a" [.dir "b" []], .file "f.txt" 1]⟩,
    List.mem_singleton_self _, ?_⟩
  exact Descends.deeper (List.mem_cons_self _ _) (Descends.here (List.mem_cons_self _ _))

/-- Claim C6 (amended): the padding width of each category is the decimal
digit count of that category's total, a zero count giving width 1; a file
of a zero-counted category later fed to the copy loop is named with index
1 — `AB_1.jpg`, not `AB_0.jpg` — because indices start at 1. -/
theorem C6_padding_width :
    (∀ cfg : Config,
      ((run cfg).image_count ≠ 0 →
        (run cfg).image_index_places = (Nat.digits 10 (run cfg).image_count).length) ∧
      ((run cfg).image_count = 0 → (run cfg).image_index_places = 1) ∧
      ((run cfg).video_count ≠ 0 →
        (run cfg).video_index_places = (Nat.digits 10 (run cfg).video_count).length) ∧
      ((run cfg).video_count = 0 → (run cfg).video_index_places = 1)) ∧
    copyLoop "AB" ["d"] ["d", "Clips"] (pyStr 0).data.length 1 [⟨["s", "late.jpg"], 0⟩] 1 1 =
      [Event.copyImage ["s", "late.jpg"] ["d", "AB_1.jpg"] 1] := by
  constructor
  · intro cfg
    refine ⟨?_, ?_, ?_, ?_⟩
    · intro h
      rw [run_image_index_places, pyStr_length, natDigits_length_eq _ h]
    · intro h
      rw [run_image_index_places, pyStr_length, h, natDigits_zero_length]
    · intro h
      rw [run_video_index_places, pyStr_length, natDigits_length_eq _ h]
    · intro h
      rw [run_video_index_places, pyStr_length, h, natDigits_zero_length]
  · rfl

/-- Companion instance of claim C6 at a concrete configuration with two
images and no videos. -/
theorem C6_padding_width_witness :
    (run C6cfg).image_index_places = (Nat.digits 10 (run C6cfg).image_count).length ∧
      (run C6cfg).video_index_places = 1 :=
  ⟨(C6_padding_width.1 C6cfg).1 (by decide), (C6_padding_width.1 C6cfg).2.2.2 (by decide)⟩

/-- Refutation of claim C6 as stated: with a zero count the width is 1, but
a later-encountered file of that category is named `AB_1.jpg`, not
`AB_0.jpg`, because indices start at 1. -/
theorem C6_counterexample :
    (pyStr 0).data.length = 1 ∧
    copyLoop "AB" ["d"] ["d", "Clips"] (pyStr 0).data.length 1 [⟨["s", "late.jpg"], 0⟩] 1 1 =
      [Event.copyImage ["s", "late.jpg"] ["d", "AB_1.jpg"] 1] ∧
    (["d", "AB_1.jpg"] : List String) ≠ ["d", "AB_0.jpg"] := by
  refine ⟨rfl, rfl, by decide⟩

/-- Claim C7: on malformed input the parser's `error` hook prints exactly
one diagnostic line carrying the message and returns normally, and parsing
proceeds with best-effort defaults instead of raising a fatal fault. -/
theorem C7_parse_error :
    ∀ (message : String) (defaults : Config),
      (Parser.parseMalformed message defaults).1 = Parser.error message ∧
      Parser.error message = ["An error occurred: " ++ message] ∧
      (Parser.error message).length = 1 ∧
      (Parser.parseMalformed message defaults).2 = some defaults := by
  intro message defaults
  exact ⟨rfl, rfl, rfl, rfl⟩

/-- Refutation of claim C8 as stated: a five-character year and a
three-character month are returned unchanged, not normalized to four and
two digits. -/
theorem C8_counterexample :
    Parser.sanitize_year "12345" = "12345" ∧ ("12345" : String).data.length ≠ 4 ∧
    Parser.sanitize_month "123" = "123" ∧ ("123" : String).data.length ≠ 2 := by
  refine ⟨rfl, by decide, rfl, by decide⟩

/-- Claim C8 (amended): the resolver left-pads the year with zeros to at
least 4 characters and the month to at least 2 characters, leaving longer
values unchanged; inputs no longer than the target width come out exactly
4 (resp. 2) characters long. -/
theorem C8_sanitize :
    ∀ (y m : String),
      (Parser.sanitize_year y).data = List.replicate (4 - y.data.length) '0' ++ y.data ∧
      (Parser.sanitize_year y).data.length = max 4 y.data.length ∧
      (Parser.sanitize_month m).data = List.replicate (2 - m.data.length) '0' ++ m.data ∧
      (Parser.sanitize_month m).data.length = max 2 m.data.length := by
  intro y m
  refine ⟨rfl, ?_, rfl, ?_⟩
  · show (List.replicate (4 - y.data.length) '0' ++ y.data).length = _
    rw [List.length_append, List.length_replicate]
    omega
  · show (List.replicate (2 - m.data.length) '0' ++ m.data).length = _
    rw [List.length_append, List.length_replicate]
    omega

/-- Claim C9: the count phase never checks that a child is a file, so each
category count bounds from above the number of items of that category seen
by the copy phase; for a source containing a subdirectory named `x.jpg`
the image count is 1 and the padding width is computed from it, while no
image is ever copied. -/
theorem C9_count_vs_copied :
    (∀ cfg : Config,
      (run cfg).items.countP isImageB ≤ (run cfg).image_count ∧
      (run cfg).items.countP isVideoB ≤ (run cfg).video_count) ∧
    ((run C9cfg).image_count = 1 ∧ (run C9cfg).items.countP isImageB = 0 ∧
      (run C9cfg).image_index_places = 1) := by
  constructor
  · intro cfg
    constructor
    · rw [run_items, run_image_count, run_sources]
      exact countItems_le_count_files _ _
    · rw [run_items, run_video_count, run_sources]
      refine le_trans (List.countP_mono_left ?_) (countItems_le_count_files _ KNOWN_VIDEO_TYPES)
      intro it _ h
      exact (Bool.and_eq_true_iff.mp h).2
  · exact ⟨rfl, rfl, rfl⟩

/-- Claim C10: within one run all copy destinations are pairwise distinct —
so no copy overwrites an earlier copy of the same run — and when the video
destination coincides with the primary destination no image is copied at
all. -/
theorem C10_no_overwrite :
    ∀ cfg : Config,
      List.Nodup ((run cfg).trace.filterMap Event.dst) ∧
      ((run cfg).video_destination = (run cfg).destination →
        (run cfg).trace.filterMap Event.imageIdx = []) := by
  intro cfg
  have hvd := video_destination_eq cfg
  have hle : (run cfg).items.countP isImageB ≤ (run cfg).image_count := by
    rw [run_items, run_image_count, run_sources]
    exact countItems_le_count_files _ _
  have himg0 : (run cfg).image_count = 0 → ∀ it ∈ (run cfg).items, isImageB it = false := by
    intro h0 it hit
    rw [h0] at hle
    exact Bool.eq_false_iff.mpr (List.countP_eq_zero.mp (Nat.le_zero.mp hle) it hit)
  constructor
  · rw [run_trace]
    by_cases hc : 0 < (run cfg).video_count ∧ (run cfg).image_count = 0
    · have hv : (run cfg).video_destination = (run cfg).destination := by
        rw [hvd, if_pos hc]
      exact copyLoop_dst_nodup cfg.initials (run cfg).destination (run cfg).video_destination
        (run cfg).image_index_places (run cfg).video_index_places (Or.inr hv)
        (run cfg).items 1 1 (by omega) (by omega) (fun _ => himg0 hc.2)
    · have hv : (run cfg).video_destination =
          (run cfg).destination ++ [DEFAULT_VIDEO_DIRECTORY] := by
        rw [hvd, if_neg hc]
      refine copyLoop_dst_nodup cfg.initials (run cfg).destination (run cfg).video_destination
        (run cfg).image_index_places (run cfg).video_index_places (Or.inl hv)
        (run cfg).items 1 1 (by omega) (by omega) ?_
      intro hveq it hit
      rw [hv] at hveq
      have hL := congrArg List.length hveq
      rw [List.length_append] at hL
      simp at hL
  · intro hveq
    have hc : 0 < (run cfg).video_count ∧ (run cfg).image_count = 0 := by
      by_contra hcn
      rw [hvd, if_neg hcn] at hveq
      have hL := congrArg List.length hveq
      rw [List.length_append] at hL
      simp at hL
    have hz : (run cfg).items.countP isImageB = 0 := by
      rw [hc.2] at hle
      exact Nat.le_zero.mp hle
    rw [run_trace,
      (copyLoop_spec cfg.initials (run cfg).destination (run cfg).video_destination
        (run cfg).image_index_places (run cfg).video_index_places (run cfg).items 1 1).1,
      hz, List.range'_zero]

/-- Companion instance of claim C10 at a concrete videos-only run, where
the two destinations coincide. -/
theorem C10_no_overwrite_witness :
    List.Nodup ((run C10cfg).trace.filterMap Event.dst) ∧
      (run C10cfg).trace.filterMap Event.imageIdx = [] :=
  ⟨(C10_no_overwrite C10cfg).1, (C10_no_overwrite C10cfg).2 rfl⟩

end Curator
